import Mathlib

/-!
Shallow embedding of the `okx_volume_profiles` repository (app.py,
src/data/data_manager.py) and verification of its specification claims.

Python floats are modelled as exact rationals (ℚ); Python `deque(maxlen=1000)`
as a list of length at most 1000 where appending to a full deque discards the
leftmost element; Python dicts keyed by price level as insertion-ordered
association lists; the filesystem touched by `save_raw_data` as a finite map
from (folder, filename) paths to lists of stored messages.
-/

namespace OkxVP

/-- One structured trade record, as built in `Dashboard.handle_data`:
`{'timestamp': int(ts), 'price': float(px), 'volume': float(sz),
  'side': side, 'trade_id': tradeId, 'inst_id': instId}`. -/
structure Trade where
  timestamp : Int
  price : ℚ
  volume : ℚ
  side : String
  trade_id : String
  inst_id : String
  deriving DecidableEq, Repr

/-- Model of `str.upper()` applied characterwise. -/
def strUpper (s : String) : String :=
  ⟨s.data.map Char.toUpper⟩

/-- Does `hay` start with `needle`? (helper for Python `in` on strings). -/
def listStarts : List Char → List Char → Bool
  | [], _ => true
  | _ :: _, [] => false
  | c :: cs, d :: ds => c == d && listStarts cs ds

/-- Python substring test `needle in hay` on character lists. -/
def listHasSub (needle : List Char) : List Char → Bool
  | [] => listStarts needle []
  | d :: ds => listStarts needle (d :: ds) || listHasSub needle ds

/-- Python `'BTC' in inst_id.upper()`. -/
def hasBTC (inst_id : String) : Bool :=
  listHasSub "BTC".data (strUpper inst_id).data

/-- Python `'ETH' in inst_id.upper()`. -/
def hasETH (inst_id : String) : Bool :=
  listHasSub "ETH".data (strUpper inst_id).data

/-- `collections.deque(maxlen=m).append`: when the deque is full the leftmost
element is discarded before the new element is appended on the right. -/
def dequeAppend (m : Nat) (xs : List Trade) (t : Trade) : List Trade :=
  if xs.length < m then xs ++ [t] else xs.drop 1 ++ [t]

/-- Python slice `xs[-limit:]` for a non-negative `limit`: for `limit = 0`
this is `xs[0:]`, i.e. the whole list; otherwise the last `limit` elements. -/
def pyLastSlice (xs : List Trade) (limit : Nat) : List Trade :=
  if limit = 0 then xs else xs.drop (xs.length - limit)

/-- The two per-group deques of `DataBuffer.__init__`
(`btc_trades = deque(maxlen=1000)`, `eth_trades = deque(maxlen=1000)`). -/
structure DataBuffer where
  btc_trades : List Trade
  eth_trades : List Trade
  deriving DecidableEq, Repr

/-- The freshly constructed buffer: both deques empty. -/
def emptyBuffer : DataBuffer := ⟨[], []⟩

/-- `DataBuffer.add_trade(inst_id, trade_data)`: classify by case-insensitive
substring match on `inst_id` (`'BTC' in inst_id.upper()` first, then
`'ETH' in inst_id.upper()`), append to the matching deque, silently drop
otherwise. -/
def add_trade (buf : DataBuffer) (inst_id : String) (t : Trade) : DataBuffer :=
  if hasBTC inst_id then
    { buf with btc_trades := dequeAppend 1000 buf.btc_trades t }
  else if hasETH inst_id then
    { buf with eth_trades := dequeAppend 1000 buf.eth_trades t }
  else
    buf

/-- `DataBuffer.get_btc_trades(limit)`: `list(self.btc_trades)[-limit:]`. -/
def get_btc_trades (buf : DataBuffer) (limit : Nat := 100) : List Trade :=
  pyLastSlice buf.btc_trades limit

/-- `DataBuffer.get_eth_trades(limit)`: `list(self.eth_trades)[-limit:]`. -/
def get_eth_trades (buf : DataBuffer) (limit : Nat := 100) : List Trade :=
  pyLastSlice buf.eth_trades limit

/-- A sequence of `add_trade` calls, each with its `inst_id` argument. -/
def applyOps (buf : DataBuffer) (ops : List (String × Trade)) : DataBuffer :=
  ops.foldl (fun b p => add_trade b p.1 p.2) buf

/-- The last `m` elements of a list (all of it when it is shorter). -/
def lastN (m : Nat) (xs : List Trade) : List Trade :=
  xs.drop (xs.length - m)

/-!  Heap-level model for snapshot independence (claim about `list(...)` in
`get_btc_trades` making a detached copy): a `World` carries the live buffer
plus the values of all snapshots handed out so far; `add_trade` mutates only
the buffer, a getter call records the copied value it returned. -/

structure World where
  buf : DataBuffer
  snapshots : List (List Trade)
  deriving DecidableEq, Repr

/-- Calling `get_btc_trades(limit)`: the returned copy is recorded. -/
def snapBtc (w : World) (limit : Nat) : World :=
  { w with snapshots := w.snapshots ++ [get_btc_trades w.buf limit] }

/-- Calling `get_eth_trades(limit)`: the returned copy is recorded. -/
def snapEth (w : World) (limit : Nat) : World :=
  { w with snapshots := w.snapshots ++ [get_eth_trades w.buf limit] }

/-- Calling `add_trade` mutates the buffer and no previously returned copy. -/
def worldAdd (w : World) (inst_id : String) (t : Trade) : World :=
  { w with buf := add_trade w.buf inst_id t }

/-- A sequence of subsequent `add_trade` calls on a `World`. -/
def worldAdds (w : World) (ops : List (String × Trade)) : World :=
  ops.foldl (fun u p => worldAdd u p.1 p.2) w

/-!  Volume-profile computation of `update_btc_chart` / `update_eth_chart`
(both callbacks run the identical bucketing code on their group's sample). -/

/-- Python `int(q)` on a rational: truncation toward zero. -/
def pyInt (q : ℚ) : ℤ :=
  if 0 ≤ q then ⌊q⌋ else -⌊-q⌋

/-- `min(prices)` for the non-empty price sample `tr :: trs`. -/
def sampleMin (tr : Trade) (trs : List Trade) : ℚ :=
  (trs.map Trade.price).foldl min tr.price

/-- `max(prices)` for the non-empty price sample `tr :: trs`. -/
def sampleMax (tr : Trade) (trs : List Trade) : ℚ :=
  (trs.map Trade.price).foldl max tr.price

/-- `bin_size = price_range / bins if price_range > 0 else 1` with `bins = 20`. -/
def binSize (tr : Trade) (trs : List Trade) : ℚ :=
  if 0 < sampleMax tr trs - sampleMin tr trs then
    (sampleMax tr trs - sampleMin tr trs) / 20
  else 1

/-- `price_level = min_price + bin_idx * bin_size + bin_size / 2` with
`bin_idx = int((price - min_price) / bin_size)`. -/
def levelOf (m w p : ℚ) : ℚ :=
  m + pyInt ((p - m) / w) * w + w / 2

/-- One step of the dict accumulation
`volume_by_price[price_level] += volume` (insertion-ordered dict). -/
def upsert : List (ℚ × ℚ) → ℚ → ℚ → List (ℚ × ℚ)
  | [], k, v => [(k, v)]
  | (k', v') :: rest, k, v =>
    if k' = k then (k', v' + v) :: rest else (k', v') :: upsert rest k v

/-- Dict read `volume_by_price[p]` (0 when absent; never hit on absent keys). -/
def lookupD : List (ℚ × ℚ) → ℚ → ℚ
  | [], _ => 0
  | (k', v') :: rest, k => if k' = k then v' else lookupD rest k

/-- The accumulated `volume_by_price` dict for a non-empty sample. -/
def profDict (tr : Trade) (trs : List Trade) : List (ℚ × ℚ) :=
  (tr :: trs).foldl
    (fun d t =>
      upsert d (levelOf (sampleMin tr trs) (binSize tr trs) t.price) t.volume)
    []

/-- The whole bucketing pass of `update_btc_chart` / `update_eth_chart`: group
volumes by price level, then emit `(sorted_prices, sorted_volumes)` pairs. -/
def volumeProfile : List Trade → List (ℚ × ℚ)
  | [] => []
  | tr :: trs =>
    let volume_by_price := profDict tr trs
    (List.insertionSort (fun a b : ℚ => a ≤ b) (volume_by_price.map Prod.fst)).map
      (fun p => (p, lookupD volume_by_price p))

/-!  Dominance (volume-share) computation of `update_dominance_chart`. -/

/-- The percentage computation on the two sampled total volumes:
`50/50` when `total_volume == 0`, otherwise `volume / total_volume * 100`. -/
def dominancePcts (btc_volume eth_volume : ℚ) : ℚ × ℚ :=
  if btc_volume + eth_volume = 0 then (50, 50)
  else (btc_volume / (btc_volume + eth_volume) * 100,
        eth_volume / (btc_volume + eth_volume) * 100)

/-- `update_dominance_chart`: sample 100 trades per group, total their
volumes, and compute the two percentages. -/
def update_dominance_pcts (buf : DataBuffer) : ℚ × ℚ :=
  dominancePcts
    ((get_btc_trades buf 100).map Trade.volume).sum
    ((get_eth_trades buf 100).map Trade.volume).sum

/-!  Wire messages and `DataManager.save_raw_data` (data_manager.py). -/

/-- One raw trade entry of a `data` array; a field is `none` when the key is
absent from the JSON object. -/
structure RawTrade where
  px : Option String
  sz : Option String
  ts : Option String
  side : Option String
  tradeId : Option String
  instId : Option String
  deriving DecidableEq, Repr

/-- The `arg` object of an inbound message. -/
structure WsArg where
  channel : Option String
  instId : Option String
  deriving DecidableEq, Repr

/-- An inbound WebSocket message (top-level JSON object). -/
structure WsMsg where
  arg : Option WsArg
  event : Option String
  data : Option (List RawTrade)
  deriving DecidableEq, Repr

/-- `msg.get('arg', {}).get('channel', d)`. -/
def argChannelD (m : WsMsg) (d : String) : String :=
  match m.arg with
  | none => d
  | some a => a.channel.getD d

/-- `msg.get('arg', {}).get('instId', d)`. -/
def argInstIdD (m : WsMsg) (d : String) : String :=
  match m.arg with
  | none => d
  | some a => a.instId.getD d

/-- Folder choice of `save_raw_data`:
`"trades" if 'trade' in channel else "other"`. -/
def rawFolder (channel : String) : String :=
  if listHasSub "trade".data channel.data then "trades" else "other"

/-- The filesystem slice touched by `save_raw_data`: a finite map from
(folder, filename) paths to the list of lines appended so far. -/
abbrev FileSys := List ((String × String) × List WsMsg)

/-- Content of the file at path `p` (empty when the file does not exist). -/
def fileAt (fs : FileSys) (p : String × String) : List WsMsg :=
  match fs with
  | [] => []
  | (q, c) :: rest => if q = p then c else fileAt rest p

/-- `open(filepath, 'a')` followed by writing one line. -/
def fsAppend (fs : FileSys) (p : String × String) (m : WsMsg) : FileSys :=
  match fs with
  | [] => [(p, [m])]
  | (q, c) :: rest =>
    if q = p then (q, c ++ [m]) :: rest else (q, c) :: fsAppend rest p m

/-- The (folder, filename) pair `save_raw_data` writes to:
folder by `rawFolder`, filename `f"{inst_id}_{channel}_{timestamp}.jsonl"`
with `timestamp` the current calendar day. -/
def rawDataPath (m : WsMsg) (today : String) : String × String :=
  (rawFolder (argChannelD m "unknown"),
   argInstIdD m "unknown" ++ "_" ++ argChannelD m "unknown" ++ "_"
     ++ today ++ ".jsonl")

/-- `DataManager.save_raw_data(msg)`: append the serialized message as one
line to the file at `rawDataPath`. -/
def save_raw_data (fs : FileSys) (m : WsMsg) (today : String) : FileSys :=
  fsAppend fs (rawDataPath m today) m

/-!  `Dashboard.handle_data` (app.py).  String-to-number conversion
(`float(...)`, `int(...)`) is abstracted by the parameters `pF` and `pI`;
a `none` result models a conversion that raises (swallowed per-record by the
inner `try`). -/

/-- `required_fields = ['px', 'sz', 'ts', 'side']` are all present. -/
def hasRequired (tr : RawTrade) : Bool :=
  tr.px.isSome && tr.sz.isSome && tr.ts.isSome && tr.side.isSome

/-- One iteration of the `for trade in msg['data']` loop: skip when a
required field is missing, build `trade_data` and call `add_trade`
otherwise (conversion failure is swallowed, leaving the buffer unchanged). -/
def processRawTrade (pF : String → Option ℚ) (pI : String → Option ℤ)
    (buf : DataBuffer) (inst_id : String) (tr : RawTrade) : DataBuffer :=
  if hasRequired tr then
    match pI (tr.ts.getD ""), pF (tr.px.getD ""), pF (tr.sz.getD "") with
    | some ts, some px, some sz =>
      add_trade buf inst_id
        { timestamp := ts, price := px, volume := sz,
          side := tr.side.getD "", trade_id := tr.tradeId.getD "",
          inst_id := tr.instId.getD inst_id }
    | _, _, _ => buf
  else buf

/-- The whole per-message trade loop of `handle_data`. -/
def handleTrades (pF : String → Option ℚ) (pI : String → Option ℤ)
    (buf : DataBuffer) (inst_id : String) (trs : List RawTrade) : DataBuffer :=
  trs.foldl (fun b tr => processRawTrade pF pI b inst_id tr) buf

/-- `Dashboard.handle_data(msg)`: archive the raw message, then, when the
message carries a non-empty `data` array on the `trades` channel, run the
trade loop. -/
def handle_data (pF : String → Option ℚ) (pI : String → Option ℤ)
    (today : String) (fs : FileSys) (buf : DataBuffer) (m : WsMsg) :
    FileSys × DataBuffer :=
  let fs' := save_raw_data fs m today
  match m.data with
  | some (tr :: trs) =>
    if argChannelD m "" = "trades" then
      (fs', handleTrades pF pI buf (argInstIdD m "") (tr :: trs))
    else (fs', buf)
  | _ => (fs', buf)

/-- A sample trade record used for concrete witnesses. -/
def t0 : Trade := ⟨0, 100, 1, "buy", "", "BTC-USDT"⟩

/-- A second sample trade record used for concrete witnesses. -/
def t1 : Trade := ⟨1, 101, 2, "sell", "", "BTC-USDT"⟩

/-- A sample trade at the top of the price span used for witnesses. -/
def tHigh : Trade := ⟨2, 200, 1, "sell", "", "BTC-USDT"⟩

/-- A candle-channel message, for exercising `save_raw_data` routing. -/
def candleMsg : WsMsg :=
  ⟨some ⟨some "candle1m", some "BTC-USDT"⟩, none, none⟩

/-- A trades-channel message, for exercising `save_raw_data` routing. -/
def tradesMsg : WsMsg :=
  ⟨some ⟨some "trades", some "BTC-USDT"⟩, none,
   some [⟨some "100", some "1", some "0", some "buy", none, none⟩]⟩

/-- A raw trade with every required field present. -/
def goodRaw : RawTrade :=
  ⟨some "100", some "1", some "0", some "buy", none, none⟩

/-- A raw trade missing the required `px` field. -/
def badRaw : RawTrade :=
  ⟨none, some "1", some "0", some "buy", none, none⟩

theorem dequeAppend_length_le {m : Nat} (hm : 0 < m) (xs : List Trade) (t : Trade)
    (h : xs.length ≤ m) : (dequeAppend m xs t).length ≤ m := by
  unfold dequeAppend
  split <;> simp [List.length_drop] <;> omega

theorem foldl_dequeAppend (m : Nat) (hm : 0 < m) (ts : List Trade) :
    ∀ xs : List Trade, xs.length ≤ m →
      ts.foldl (dequeAppend m) xs = lastN m (xs ++ ts) := by
  induction ts with
  | nil =>
    intro xs h
    simp [lastN, Nat.sub_eq_zero_of_le h]
  | cons t ts ih =>
    intro xs h
    rw [List.foldl_cons]
    by_cases hlt : xs.length < m
    · rw [show dequeAppend m xs t = xs ++ [t] from by simp [dequeAppend, hlt]]
      rw [ih (xs ++ [t]) (by simp; omega)]
      simp [lastN]
    · have hxm : xs.length = m := le_antisymm h (Nat.le_of_not_lt hlt)
      rw [show dequeAppend m xs t = xs.drop 1 ++ [t] from by simp [dequeAppend, hlt]]
      rw [ih (xs.drop 1 ++ [t]) (by simp [List.length_drop]; omega)]
      have h1 : (xs.drop 1 ++ [t]) ++ ts = (xs ++ t :: ts).drop 1 := by
        rw [List.drop_append_of_le_length (by omega)]
        simp
      rw [h1]
      unfold lastN
      rw [List.drop_drop, List.length_drop]
      congr 1
      simp
      omega

theorem applyOps_all_btc (ops : List (String × Trade)) :
    ∀ buf : DataBuffer, (∀ p ∈ ops, hasBTC p.1 = true) →
      applyOps buf ops
        = ⟨(ops.map Prod.snd).foldl (dequeAppend 1000) buf.btc_trades,
           buf.eth_trades⟩ := by
  induction ops with
  | nil => intro buf _; rfl
  | cons p ops ih =>
    intro buf h
    have hp : hasBTC p.1 = true := h p (List.mem_cons_self p ops)
    show applyOps (add_trade buf p.1 p.2) ops = _
    rw [ih _ (fun q hq => h q (List.mem_cons_of_mem p hq))]
    simp [add_trade, hp]

theorem applyOps_all_eth (ops : List (String × Trade)) :
    ∀ buf : DataBuffer, (∀ p ∈ ops, hasBTC p.1 = false ∧ hasETH p.1 = true) →
      applyOps buf ops
        = ⟨buf.btc_trades,
           (ops.map Prod.snd).foldl (dequeAppend 1000) buf.eth_trades⟩ := by
  induction ops with
  | nil => intro buf _; rfl
  | cons p ops ih =>
    intro buf h
    have hp := h p (List.mem_cons_self p ops)
    show applyOps (add_trade buf p.1 p.2) ops = _
    rw [ih _ (fun q hq => h q (List.mem_cons_of_mem p hq))]
    simp [add_trade, hp.1, hp.2]

theorem mem_dequeAppend {m : Nat} {xs : List Trade} {t x : Trade}
    (hx : x ∈ dequeAppend m xs t) : x ∈ xs ∨ x = t := by
  unfold dequeAppend at hx
  split at hx
  · rcases List.mem_append.mp hx with h | h
    · exact Or.inl h
    · exact Or.inr (List.mem_singleton.mp h)
  · rcases List.mem_append.mp hx with h | h
    · exact Or.inl (List.drop_subset 1 xs h)
    · exact Or.inr (List.mem_singleton.mp h)

theorem applyOps_btc_provenance (ops : List (String × Trade)) :
    ∀ (buf : DataBuffer) (x : Trade), x ∈ (applyOps buf ops).btc_trades →
      x ∈ buf.btc_trades ∨ ∃ p ∈ ops, p.2 = x ∧ hasBTC p.1 = true := by
  induction ops with
  | nil => intro buf x hx; exact Or.inl hx
  | cons p ops ih =>
    intro buf x hx
    rcases ih (add_trade buf p.1 p.2) x hx with h | ⟨q, hq, hqx, hqb⟩
    · by_cases hb : hasBTC p.1
      · simp only [add_trade, hb, if_true] at h
        rcases mem_dequeAppend h with h' | h'
        · exact Or.inl h'
        · exact Or.inr ⟨p, List.mem_cons_self p ops, h'.symm, hb⟩
      · have : (add_trade buf p.1 p.2).btc_trades = buf.btc_trades := by
          simp only [add_trade, hb, Bool.false_eq_true, if_false]
          split <;> rfl
        rw [this] at h
        exact Or.inl h
    · exact Or.inr ⟨q, List.mem_cons_of_mem p hq, hqx, hqb⟩

theorem applyOps_eth_provenance (ops : List (String × Trade)) :
    ∀ (buf : DataBuffer) (x : Trade), x ∈ (applyOps buf ops).eth_trades →
      x ∈ buf.eth_trades
        ∨ ∃ p ∈ ops, p.2 = x ∧ hasBTC p.1 = false ∧ hasETH p.1 = true := by
  induction ops with
  | nil => intro buf x hx; exact Or.inl hx
  | cons p ops ih =>
    intro buf x hx
    rcases ih (add_trade buf p.1 p.2) x hx with h | ⟨q, hq, hqx, hqb⟩
    · by_cases hb : hasBTC p.1
      · have : (add_trade buf p.1 p.2).eth_trades = buf.eth_trades := by
          simp [add_trade, hb]
        rw [this] at h
        exact Or.inl h
      · by_cases he : hasETH p.1
        · simp only [add_trade, hb, he, Bool.false_eq_true, if_false, if_true] at h
          rcases mem_dequeAppend h with h' | h'
          · exact Or.inl h'
          · exact Or.inr ⟨p, List.mem_cons_self p ops,
              h'.symm, Bool.eq_false_iff.mpr hb, he⟩
        · have : add_trade buf p.1 p.2 = buf := by
            simp [add_trade, hb, he]
          rw [this] at h
          exact Or.inl h
    · exact Or.inr ⟨q, List.mem_cons_of_mem p hq, hqx, hqb⟩

theorem mem_pyLastSlice {xs : List Trade} {limit : Nat} {x : Trade}
    (hx : x ∈ pyLastSlice xs limit) : x ∈ xs := by
  unfold pyLastSlice at hx
  split at hx
  · exact hx
  · exact List.drop_subset _ xs hx

theorem worldAdds_snapshots (ops : List (String × Trade)) :
    ∀ w : World, (worldAdds w ops).snapshots = w.snapshots := by
  induction ops with
  | nil => intro w; rfl
  | cons p ops ih => intro w; exact ih (worldAdd w p.1 p.2)

theorem upsert_sum (d : List (ℚ × ℚ)) (k v : ℚ) :
    ((upsert d k v).map Prod.snd).sum = (d.map Prod.snd).sum + v := by
  induction d with
  | nil => simp [upsert]
  | cons e rest ih =>
    obtain ⟨k', v'⟩ := e
    by_cases h : k' = k
    · simp [upsert, h]
      ring
    · simp [upsert, h, ih]
      ring

theorem upsert_keys (d : List (ℚ × ℚ)) (k v : ℚ) :
    (upsert d k v).map Prod.fst
      = if k ∈ d.map Prod.fst then d.map Prod.fst
        else d.map Prod.fst ++ [k] := by
  induction d with
  | nil => simp [upsert]
  | cons e rest ih =>
    obtain ⟨k', v'⟩ := e
    by_cases h : k' = k
    · simp [upsert, h]
    · have hne : ¬ k = k' := fun hh => h hh.symm
      simp only [upsert, if_neg h, List.map_cons, ih, List.mem_cons, hne,
        false_or]
      by_cases hk : k ∈ rest.map Prod.fst
      · simp [hk]
      · simp [hk]

theorem foldl_upsert_sum (es : List (ℚ × ℚ)) :
    ∀ d : List (ℚ × ℚ),
      ((es.foldl (fun d e => upsert d e.1 e.2) d).map Prod.snd).sum
        = (d.map Prod.snd).sum + (es.map Prod.snd).sum := by
  induction es with
  | nil => intro d; simp
  | cons e es ih =>
    intro d
    rw [List.foldl_cons, ih, upsert_sum]
    simp
    ring

theorem foldl_upsert_nodup (es : List (ℚ × ℚ)) :
    ∀ d : List (ℚ × ℚ), (d.map Prod.fst).Nodup →
      ((es.foldl (fun d e => upsert d e.1 e.2) d).map Prod.fst).Nodup := by
  induction es with
  | nil => intro d h; exact h
  | cons e es ih =>
    intro d h
    rw [List.foldl_cons]
    refine ih _ ?_
    rw [upsert_keys]
    split
    · exact h
    · next hk =>
      simp [List.nodup_append, h, hk]

theorem mem_keys_foldl_upsert (es : List (ℚ × ℚ)) :
    ∀ (d : List (ℚ × ℚ)) (k : ℚ),
      k ∈ (es.foldl (fun d e => upsert d e.1 e.2) d).map Prod.fst →
      k ∈ d.map Prod.fst ∨ ∃ e ∈ es, e.1 = k := by
  induction es with
  | nil => intro d k h; exact Or.inl h
  | cons e es ih =>
    intro d k h
    rw [List.foldl_cons] at h
    rcases ih _ k h with h' | ⟨e', he', hk⟩
    · rw [upsert_keys] at h'
      split at h'
      · exact Or.inl h'
      · rcases List.mem_append.mp h' with h'' | h''
        · exact Or.inl h''
        · exact Or.inr ⟨e, List.mem_cons_self e es,
            (List.mem_singleton.mp h'').symm⟩
    · exact Or.inr ⟨e', List.mem_cons_of_mem e he', hk⟩

theorem map_lookupD_keys (d : List (ℚ × ℚ)) (hnd : (d.map Prod.fst).Nodup) :
    (d.map Prod.fst).map (fun k => lookupD d k) = d.map Prod.snd := by
  induction d with
  | nil => rfl
  | cons e rest ih =>
    obtain ⟨k, v⟩ := e
    simp only [List.map_cons]
    have h0 : lookupD ((k, v) :: rest) k = v := by simp [lookupD]
    rw [h0]
    have hk : k ∉ rest.map Prod.fst := (List.nodup_cons.mp hnd).1
    have hcong : (rest.map Prod.fst).map (fun a => lookupD ((k, v) :: rest) a)
        = (rest.map Prod.fst).map (fun a => lookupD rest a) := by
      apply List.map_congr_left
      intro a ha
      have hne : ¬ k = a := fun hh => hk (hh ▸ ha)
      simp [lookupD, hne]
    rw [hcong, ih (List.nodup_cons.mp hnd).2]

theorem foldl_min_le (l : List ℚ) :
    ∀ a : ℚ, l.foldl min a ≤ a ∧ ∀ x ∈ l, l.foldl min a ≤ x := by
  induction l with
  | nil => intro a; exact ⟨le_refl a, by simp⟩
  | cons y l ih =>
    intro a
    have h := ih (min a y)
    refine ⟨le_trans h.1 (min_le_left a y), ?_⟩
    intro x hx
    rcases List.mem_cons.mp hx with rfl | hx
    · exact le_trans h.1 (min_le_right a x)
    · exact h.2 x hx

theorem le_foldl_max (l : List ℚ) :
    ∀ a : ℚ, a ≤ l.foldl max a ∧ ∀ x ∈ l, x ≤ l.foldl max a := by
  induction l with
  | nil => intro a; exact ⟨le_refl a, by simp⟩
  | cons y l ih =>
    intro a
    have h := ih (max a y)
    refine ⟨le_trans (le_max_left a y) h.1, ?_⟩
    intro x hx
    rcases List.mem_cons.mp hx with rfl | hx
    · exact le_trans (le_max_right a x) h.1
    · exact h.2 x hx

theorem sampleMin_le_price (tr : Trade) (trs : List Trade) :
    ∀ t ∈ tr :: trs, sampleMin tr trs ≤ t.price := by
  intro t ht
  rcases List.mem_cons.mp ht with rfl | ht
  · exact (foldl_min_le (trs.map Trade.price) t.price).1
  · exact (foldl_min_le (trs.map Trade.price) tr.price).2 t.price
      (List.mem_map_of_mem Trade.price ht)

theorem price_le_sampleMax (tr : Trade) (trs : List Trade) :
    ∀ t ∈ tr :: trs, t.price ≤ sampleMax tr trs := by
  intro t ht
  rcases List.mem_cons.mp ht with rfl | ht
  · exact (le_foldl_max (trs.map Trade.price) t.price).1
  · exact (le_foldl_max (trs.map Trade.price) tr.price).2 t.price
      (List.mem_map_of_mem Trade.price ht)

theorem binSize_eq (tr : Trade) (trs : List Trade)
    (hlt : sampleMin tr trs < sampleMax tr trs) :
    binSize tr trs = (sampleMax tr trs - sampleMin tr trs) / 20 := by
  unfold binSize
  rw [if_pos (by linarith)]

theorem binSize_pos (tr : Trade) (trs : List Trade)
    (hlt : sampleMin tr trs < sampleMax tr trs) :
    0 < binSize tr trs := by
  rw [binSize_eq tr trs hlt]
  exact div_pos (by linarith) (by norm_num)

theorem pyInt_nonneg_arg {q : ℚ} (h : 0 ≤ q) : pyInt q = ⌊q⌋ := by
  unfold pyInt
  rw [if_pos h]

theorem pyInt_idx_bounds {m mx w p : ℚ} (hw : w = (mx - m) / 20)
    (hwpos : 0 < w) (hmp : m ≤ p) (hpx : p ≤ mx) :
    0 ≤ pyInt ((p - m) / w) ∧ pyInt ((p - m) / w) ≤ 20
      ∧ (pyInt ((p - m) / w) = 20 ↔ p = mx) := by
  have hq0 : (0 : ℚ) ≤ (p - m) / w := by
    apply div_nonneg (by linarith) (le_of_lt hwpos)
  rw [pyInt_nonneg_arg hq0]
  have hle : (p - m) / w ≤ 20 := by
    rw [div_le_iff hwpos]
    rw [hw]
    have h20 : (20 : ℚ) * ((mx - m) / 20) = mx - m := by ring
    linarith [h20]
  have hfl : ⌊(p - m) / w⌋ ≤ 20 := by
    have h1 : (⌊(p - m) / w⌋ : ℚ) ≤ 20 := le_trans (Int.floor_le _) hle
    exact_mod_cast h1
  refine ⟨Int.floor_nonneg.mpr hq0, hfl, ?_, ?_⟩
  · intro h20
    have h1 : (20 : ℚ) ≤ (p - m) / w := by
      have := Int.floor_le ((p - m) / w)
      have h2 : ((20 : ℤ) : ℚ) ≤ (p - m) / w := by
        rw [← h20]
        exact Int.le_floor.mp (le_refl _)
      exact_mod_cast h2
    have heq : (p - m) / w = 20 := le_antisymm hle h1
    have : p - m = 20 * w := by
      field_simp at heq
      linarith
    rw [hw] at this
    have h20 : (20 : ℚ) * ((mx - m) / 20) = mx - m := by ring
    linarith
  · intro hp
    subst hp
    have hne : w ≠ 0 := ne_of_gt hwpos
    have hpm : p - m = 20 * w := by rw [hw]; ring
    rw [hpm, mul_div_assoc, div_self hne, mul_one]
    norm_num

theorem profDict_eq_foldl_kv (tr : Trade) (trs : List Trade) :
    profDict tr trs
      = ((tr :: trs).map (fun t =>
          (levelOf (sampleMin tr trs) (binSize tr trs) t.price,
           t.volume))).foldl (fun d e => upsert d e.1 e.2) [] := by
  rw [List.foldl_map]
  rfl

theorem profDict_keys_nodup (tr : Trade) (trs : List Trade) :
    ((profDict tr trs).map Prod.fst).Nodup := by
  rw [profDict_eq_foldl_kv]
  exact foldl_upsert_nodup _ [] (by simp)

theorem volumeProfile_cons (tr : Trade) (trs : List Trade) :
    volumeProfile (tr :: trs)
      = (List.insertionSort (fun a b : ℚ => a ≤ b)
          ((profDict tr trs).map Prod.fst)).map
          (fun p => (p, lookupD (profDict tr trs) p)) := rfl

theorem volumeProfile_sum (tr : Trade) (trs : List Trade) :
    ((volumeProfile (tr :: trs)).map Prod.snd).sum
      = ((tr :: trs).map Trade.volume).sum := by
  rw [volumeProfile_cons, List.map_map]
  have h1 : (Prod.snd ∘ fun p : ℚ => (p, lookupD (profDict tr trs) p))
      = fun p => lookupD (profDict tr trs) p := rfl
  rw [h1]
  have hperm := (List.perm_insertionSort (fun a b : ℚ => a ≤ b)
      ((profDict tr trs).map Prod.fst)).map
      (fun p => lookupD (profDict tr trs) p)
  rw [List.Perm.sum_eq hperm]
  rw [map_lookupD_keys _ (profDict_keys_nodup tr trs)]
  rw [profDict_eq_foldl_kv, foldl_upsert_sum]
  have h2 : (Prod.snd ∘ fun t : Trade =>
      (levelOf (sampleMin tr trs) (binSize tr trs) t.price, t.volume))
      = Trade.volume := rfl
  simp [List.map_map, h2]

theorem volumeProfile_sorted (tr : Trade) (trs : List Trade) :
    ((volumeProfile (tr :: trs)).map Prod.fst).Pairwise
      (fun a b : ℚ => a ≤ b) := by
  rw [volumeProfile_cons, List.map_map]
  have h1 : (Prod.fst ∘ fun p : ℚ => (p, lookupD (profDict tr trs) p))
      = id := rfl
  rw [h1, List.map_id]
  exact List.sorted_insertionSort _ _

theorem volumeProfile_levels (tr : Trade) (trs : List Trade) :
    ∀ pr ∈ volumeProfile (tr :: trs), ∃ t ∈ tr :: trs,
      pr.1 = levelOf (sampleMin tr trs) (binSize tr trs) t.price := by
  intro pr hpr
  rw [volumeProfile_cons] at hpr
  rcases List.mem_map.mp hpr with ⟨p, hp, rfl⟩
  have hp' : p ∈ (profDict tr trs).map Prod.fst :=
    (List.perm_insertionSort _ _).subset hp
  rw [profDict_eq_foldl_kv] at hp'
  rcases mem_keys_foldl_upsert _ [] p hp' with h | ⟨e, he, hk⟩
  · simp at h
  · rcases List.mem_map.mp he with ⟨t, ht, rfl⟩
    exact ⟨t, ht, by simpa using hk.symm⟩

/-- Claim C1: after any sequence of `N > 1000` appends that all classify to
one instrument group, `get_btc_trades` (resp. `get_eth_trades`) with
`limit = N` returns exactly the last 1000 appended records in their original
relative insertion order, the oldest having been evicted first. -/
theorem claim1_fifo_eviction (ops : List (String × Trade))
    (hN : 1000 < ops.length) :
    ((∀ p ∈ ops, hasBTC p.1 = true) →
      get_btc_trades (applyOps emptyBuffer ops) ops.length
        = (ops.map Prod.snd).drop (ops.length - 1000))
    ∧ ((∀ p ∈ ops, hasBTC p.1 = false ∧ hasETH p.1 = true) →
      get_eth_trades (applyOps emptyBuffer ops) ops.length
        = (ops.map Prod.snd).drop (ops.length - 1000)) := by
  have hlen : (ops.map Prod.snd).length = ops.length := List.length_map ops Prod.snd
  constructor
  · intro h
    rw [applyOps_all_btc ops emptyBuffer h]
    show pyLastSlice ((ops.map Prod.snd).foldl (dequeAppend 1000) []) ops.length = _
    rw [foldl_dequeAppend 1000 (by omega) _ [] (by simp)]
    unfold pyLastSlice lastN
    rw [if_neg (by omega)]
    simp only [List.nil_append, List.length_drop, hlen]
    rw [Nat.sub_eq_zero_of_le (by omega), List.drop_zero]
  · intro h
    rw [applyOps_all_eth ops emptyBuffer h]
    show pyLastSlice ((ops.map Prod.snd).foldl (dequeAppend 1000) []) ops.length = _
    rw [foldl_dequeAppend 1000 (by omega) _ [] (by simp)]
    unfold pyLastSlice lastN
    rw [if_neg (by omega)]
    simp only [List.nil_append, List.length_drop, hlen]
    rw [Nat.sub_eq_zero_of_le (by omega), List.drop_zero]

/-- Witness for C1: 1001 appends of the same BTC-classified record leave
exactly the last 1000 of them. -/
theorem claim1_fifo_eviction_witness :
    1000 < (List.replicate 1001 ("BTC-USDT", t0)).length
    ∧ get_btc_trades
        (applyOps emptyBuffer (List.replicate 1001 ("BTC-USDT", t0)))
        (List.replicate 1001 ("BTC-USDT", t0)).length
      = List.replicate 1000 t0 := by
  refine ⟨by simp only [List.length_replicate]; omega, ?_⟩
  have h := (claim1_fifo_eviction (List.replicate 1001 ("BTC-USDT", t0))
      (by simp only [List.length_replicate]; omega)).1
      (by intro p hp; rw [(List.mem_replicate.mp hp).2]; decide)
  rw [h]
  simp only [List.map_replicate, List.length_replicate, List.drop_replicate]

/-- Claim C2 counterexample: with one record in the BTC buffer and
`limit = 0 ≤ current size`, `get_btc_trades` returns that record
(Python `[-0:]` is the whole list), not zero records as the claim demands. -/
theorem claim2_counterexample :
    0 ≤ (add_trade emptyBuffer "BTC-USDT" t0).btc_trades.length
    ∧ get_btc_trades (add_trade emptyBuffer "BTC-USDT" t0) 0 = [t0]
    ∧ (get_btc_trades (add_trade emptyBuffer "BTC-USDT" t0) 0).length ≠ 0 := by
  have hb : hasBTC "BTC-USDT" = true := by decide
  refine ⟨Nat.zero_le _, ?_, ?_⟩
  · simp [add_trade, hb, get_btc_trades, pyLastSlice, emptyBuffer, dequeAppend]
  · simp [add_trade, hb, get_btc_trades, pyLastSlice, emptyBuffer, dequeAppend]

/-- Claim C2 (amended): for `1 ≤ limit ≤ current size` the getters return
exactly the last `limit` records in insertion order; for `limit` above the
size they return all records with no padding; for `limit = 0` they return
all records (Python slice `[-0:]`); with an empty buffer they return the
empty sequence. -/
theorem claim2_recent_limit (buf : DataBuffer) (limit : Nat) :
    (1 ≤ limit → limit ≤ buf.btc_trades.length →
      get_btc_trades buf limit
          = buf.btc_trades.drop (buf.btc_trades.length - limit)
        ∧ (get_btc_trades buf limit).length = limit)
    ∧ (buf.btc_trades.length < limit → get_btc_trades buf limit = buf.btc_trades)
    ∧ (limit = 0 → get_btc_trades buf limit = buf.btc_trades)
    ∧ (buf.btc_trades = [] → get_btc_trades buf limit = [])
    ∧ (1 ≤ limit → limit ≤ buf.eth_trades.length →
      get_eth_trades buf limit
          = buf.eth_trades.drop (buf.eth_trades.length - limit)
        ∧ (get_eth_trades buf limit).length = limit)
    ∧ (buf.eth_trades.length < limit → get_eth_trades buf limit = buf.eth_trades)
    ∧ (limit = 0 → get_eth_trades buf limit = buf.eth_trades)
    ∧ (buf.eth_trades = [] → get_eth_trades buf limit = []) := by
  have slice : ∀ xs : List Trade,
      (1 ≤ limit → limit ≤ xs.length →
        pyLastSlice xs limit = xs.drop (xs.length - limit)
          ∧ (pyLastSlice xs limit).length = limit)
      ∧ (xs.length < limit → pyLastSlice xs limit = xs)
      ∧ (limit = 0 → pyLastSlice xs limit = xs)
      ∧ (xs = [] → pyLastSlice xs limit = []) := by
    intro xs
    refine ⟨fun h1 h2 => ⟨?_, ?_⟩, fun h => ?_, fun h => ?_, fun h => ?_⟩
    · unfold pyLastSlice; rw [if_neg (by omega)]
    · unfold pyLastSlice; rw [if_neg (by omega)]; simp [List.length_drop]; omega
    · unfold pyLastSlice
      split
      · rfl
      · rw [Nat.sub_eq_zero_of_le (by omega), List.drop_zero]
    · unfold pyLastSlice; rw [if_pos h]
    · subst h; unfold pyLastSlice; split <;> simp
  exact ⟨(slice buf.btc_trades).1, (slice buf.btc_trades).2.1,
    (slice buf.btc_trades).2.2.1, (slice buf.btc_trades).2.2.2,
    (slice buf.eth_trades).1, (slice buf.eth_trades).2.1,
    (slice buf.eth_trades).2.2.1, (slice buf.eth_trades).2.2.2⟩

/-- Witness for the amended C2: two records, `limit = 1` returns exactly the
most recent one. -/
theorem claim2_recent_limit_witness :
    get_btc_trades ⟨[t0, t1], []⟩ 1
        = [t0, t1].drop ([t0, t1].length - 1)
    ∧ (get_btc_trades ⟨[t0, t1], []⟩ 1).length = 1 :=
  (claim2_recent_limit ⟨[t0, t1], []⟩ 1).1 (by omega) (by simp)

/-- Claim C3: `add_trade` classifies each record by case-insensitive
substring match into exactly one group (BTC tested first, then ETH) or
silently drops it, and any record in a group's `recent()` output was
appended with an identifier that classified to that group — never to the
other one. -/
theorem claim3_classification :
    (∀ (buf : DataBuffer) (inst_id : String) (t : Trade),
      (hasBTC inst_id = true →
        add_trade buf inst_id t
          = { buf with btc_trades := dequeAppend 1000 buf.btc_trades t })
      ∧ (hasBTC inst_id = false → hasETH inst_id = true →
        add_trade buf inst_id t
          = { buf with eth_trades := dequeAppend 1000 buf.eth_trades t })
      ∧ (hasBTC inst_id = false → hasETH inst_id = false →
        add_trade buf inst_id t = buf))
    ∧ (∀ (ops : List (String × Trade)) (limit : Nat) (x : Trade),
      (x ∈ get_btc_trades (applyOps emptyBuffer ops) limit →
        ∃ p ∈ ops, p.2 = x ∧ hasBTC p.1 = true)
      ∧ (x ∈ get_eth_trades (applyOps emptyBuffer ops) limit →
        ∃ p ∈ ops, p.2 = x ∧ hasBTC p.1 = false ∧ hasETH p.1 = true)) := by
  constructor
  · intro buf inst_id t
    refine ⟨fun hb => by simp [add_trade, hb],
      fun hb he => by simp [add_trade, hb, he],
      fun hb he => by simp [add_trade, hb, he]⟩
  · intro ops limit x
    constructor
    · intro hx
      rcases applyOps_btc_provenance ops emptyBuffer x (mem_pyLastSlice hx) with
        h | h
      · exact absurd h (List.not_mem_nil x)
      · exact h
    · intro hx
      rcases applyOps_eth_provenance ops emptyBuffer x (mem_pyLastSlice hx) with
        h | h
      · exact absurd h (List.not_mem_nil x)
      · exact h

/-- Witness for C3: a record read back from the ETH group's recent output
came from an append whose identifier matched ETH and not BTC. -/
theorem claim3_classification_witness :
    t0 ∈ get_eth_trades (applyOps emptyBuffer [("ETH-USDT", t0)]) 5
    ∧ ∃ p ∈ [("ETH-USDT", t0)], p.2 = t0
        ∧ hasBTC p.1 = false ∧ hasETH p.1 = true := by
  have hmem : t0 ∈ get_eth_trades (applyOps emptyBuffer [("ETH-USDT", t0)]) 5 := by
    have hb : hasBTC "ETH-USDT" = false := by decide
    have he : hasETH "ETH-USDT" = true := by decide
    simp [applyOps, add_trade, hb, he, emptyBuffer, dequeAppend,
      get_eth_trades, pyLastSlice]
  exact ⟨hmem, (claim3_classification.2 [("ETH-USDT", t0)] 5 t0).2 hmem⟩

/-- Claim C4: a snapshot returned by `get_btc_trades` / `get_eth_trades` is a
detached copy: after any sequence of subsequent `add_trade` calls the
previously returned snapshot still holds exactly the value it was given. -/
theorem claim4_snapshot_independence (w : World) (limit : Nat)
    (ops : List (String × Trade)) :
    (worldAdds (snapBtc w limit) ops).snapshots.getD w.snapshots.length []
        = get_btc_trades w.buf limit
    ∧ (worldAdds (snapEth w limit) ops).snapshots.getD w.snapshots.length []
        = get_eth_trades w.buf limit := by
  constructor
  · rw [worldAdds_snapshots]
    show (w.snapshots ++ [get_btc_trades w.buf limit]).getD w.snapshots.length []
      = _
    simp [List.getD, List.getElem?_concat_length]
  · rw [worldAdds_snapshots]
    show (w.snapshots ++ [get_eth_trades w.buf limit]).getD w.snapshots.length []
      = _
    simp [List.getD, List.getElem?_concat_length]

/-- Claim C5 counterexample: for the two-record sample with prices 100 and
200 the code emits a bucket centred at 405/2 = 202.5, strictly above the
maximum sampled price — the record priced at the maximum lands in an extra
21st bucket (bin index 20) outside [min, max], so the computation does not
partition the prices into exactly 20 buckets spanning [min, max]. -/
theorem claim5_counterexample :
    volumeProfile [t0, tHigh] = [(205 / 2, 1), (405 / 2, 1)]
    ∧ sampleMax t0 [tHigh] = 200
    ∧ (200 : ℚ) < 405 / 2 := by
  refine ⟨?_, ?_, by norm_num⟩
  · norm_num [volumeProfile, profDict, sampleMin, sampleMax, binSize, levelOf,
      pyInt, upsert, lookupD, t0, tHigh, min_def, max_def,
      List.insertionSort, List.orderedInsert]
  · norm_num [sampleMax, t0, tHigh, max_def]

/-- Claim C5 (amended): for every sample with at least two distinct prices,
the computation assigns each record the bin index `int((price - min) / w)`
with `w = (max - min) / 20`; the indices range over 0..20 — at most 21
buckets, index 20 being hit exactly by records priced at the maximum — every
bucket centre is `min + i * w + w / 2` for some `i ≤ 20`, each record's
volume is added to exactly one bucket (total volume is conserved), and the
buckets are emitted sorted by price ascending. -/
theorem claim5_bucketing (tr : Trade) (trs : List Trade)
    (hlt : sampleMin tr trs < sampleMax tr trs) :
    ((volumeProfile (tr :: trs)).map Prod.fst).Pairwise (fun a b : ℚ => a ≤ b)
    ∧ ((volumeProfile (tr :: trs)).map Prod.snd).sum
        = ((tr :: trs).map Trade.volume).sum
    ∧ (∀ pr ∈ volumeProfile (tr :: trs), ∃ i : ℕ, i ≤ 20
        ∧ pr.1 = sampleMin tr trs + (i : ℚ) * binSize tr trs
            + binSize tr trs / 2)
    ∧ (∀ t ∈ tr :: trs,
        (pyInt ((t.price - sampleMin tr trs) / binSize tr trs) = 20
          ↔ t.price = sampleMax tr trs)) := by
  have hw := binSize_eq tr trs hlt
  have hwpos := binSize_pos tr trs hlt
  refine ⟨volumeProfile_sorted tr trs, volumeProfile_sum tr trs, ?_, ?_⟩
  · intro pr hpr
    rcases volumeProfile_levels tr trs pr hpr with ⟨t, ht, hlev⟩
    have hb := pyInt_idx_bounds hw hwpos (sampleMin_le_price tr trs t ht)
        (price_le_sampleMax tr trs t ht)
    refine ⟨(pyInt ((t.price - sampleMin tr trs) / binSize tr trs)).toNat,
      ?_, ?_⟩
    · omega
    · rw [hlev]
      unfold levelOf
      have hcast :
          (((pyInt ((t.price - sampleMin tr trs) / binSize tr trs)).toNat
            : ℕ) : ℚ)
          = ((pyInt ((t.price - sampleMin tr trs) / binSize tr trs) : ℤ)
            : ℚ) := by
        exact_mod_cast congrArg (fun z : ℤ => (z : ℚ))
          (Int.toNat_of_nonneg hb.1)
      rw [hcast]
  · intro t ht
    exact (pyInt_idx_bounds hw hwpos (sampleMin_le_price tr trs t ht)
      (price_le_sampleMax tr trs t ht)).2.2

/-- Witness for the amended C5 at the concrete sample with prices 100, 200. -/
theorem claim5_bucketing_witness :
    ((volumeProfile [t0, tHigh]).map Prod.fst).Pairwise
        (fun a b : ℚ => a ≤ b)
    ∧ ((volumeProfile [t0, tHigh]).map Prod.snd).sum
        = ([t0, tHigh].map Trade.volume).sum
    ∧ (∀ pr ∈ volumeProfile [t0, tHigh], ∃ i : ℕ, i ≤ 20
        ∧ pr.1 = sampleMin t0 [tHigh] + (i : ℚ) * binSize t0 [tHigh]
            + binSize t0 [tHigh] / 2)
    ∧ (∀ t ∈ [t0, tHigh],
        (pyInt ((t.price - sampleMin t0 [tHigh]) / binSize t0 [tHigh]) = 20
          ↔ t.price = sampleMax t0 [tHigh])) :=
  claim5_bucketing t0 [tHigh]
    (by norm_num [sampleMin, sampleMax, t0, tHigh, min_def, max_def])

/-- Claim C6: when every sampled record has volume 1 (prices spanning
[100, 200]), the sum of all bucket volumes equals the record count exactly:
no volume is lost and none is double-counted. -/
theorem claim6_volume_conservation (tr : Trade) (trs : List Trade)
    (hvol : ∀ t ∈ tr :: trs, t.volume = 1)
    (hrange : ∀ t ∈ tr :: trs, 100 ≤ t.price ∧ t.price ≤ 200)
    (hmin : sampleMin tr trs = 100) (hmax : sampleMax tr trs = 200) :
    ((volumeProfile (tr :: trs)).map Prod.snd).sum
      = ((tr :: trs).length : ℚ) := by
  rw [volumeProfile_sum]
  have h1 : (tr :: trs).map Trade.volume
      = (tr :: trs).map (fun _ => (1 : ℚ)) := List.map_congr_left hvol
  rw [h1]
  induction trs with
  | nil => simp
  | cons s ss _ =>
    simp_all
    ring

/-- Witness for C6 at the concrete three-record unit-volume sample. -/
theorem claim6_volume_conservation_witness :
    ((volumeProfile [t0, tHigh]).map Prod.snd).sum
      = (([t0, tHigh] : List Trade).length : ℚ) :=
  claim6_volume_conservation t0 [tHigh]
    (by intro t ht; fin_cases ht <;> rfl)
    (by intro t ht; fin_cases ht <;> constructor <;> norm_num [t0, tHigh])
    (by norm_num [sampleMin, t0, tHigh, min_def])
    (by norm_num [sampleMax, t0, tHigh, max_def])

/-- Claim C7: the two-way volume share is `group volume / total * 100`; 30
and 70 give exactly 30% and 70%; a zero total defaults both shares to 50%.
The last conjunct ties the percentage computation to the sampled 100-record
volume totals of `update_dominance_chart`. -/
theorem claim7_volume_share (b e : ℚ) :
    (b + e ≠ 0 →
      dominancePcts b e = (b / (b + e) * 100, e / (b + e) * 100))
    ∧ dominancePcts 30 70 = (30, 70)
    ∧ dominancePcts 0 0 = (50, 50)
    ∧ ∀ buf : DataBuffer, update_dominance_pcts buf
        = dominancePcts ((get_btc_trades buf 100).map Trade.volume).sum
            ((get_eth_trades buf 100).map Trade.volume).sum := by
  refine ⟨fun h => by simp [dominancePcts, h], ?_,
    by simp [dominancePcts], fun buf => rfl⟩
  have h : (30 : ℚ) + 70 ≠ 0 := by norm_num
  simp only [dominancePcts, if_neg h, Prod.mk.injEq]
  norm_num

/-- Witness for C7 at group volumes 30 and 70. -/
theorem claim7_volume_share_witness :
    (30 : ℚ) + 70 ≠ 0
    ∧ dominancePcts 30 70 = (30 / (30 + 70) * 100, 70 / (30 + 70) * 100) :=
  ⟨by norm_num, (claim7_volume_share 30 70).1 (by norm_num)⟩

theorem fileAt_fsAppend_self (fs : FileSys) (p : String × String) (m : WsMsg) :
    fileAt (fsAppend fs p m) p = fileAt fs p ++ [m] := by
  induction fs with
  | nil => simp [fsAppend, fileAt]
  | cons e rest ih =>
    obtain ⟨q, c⟩ := e
    by_cases h : q = p
    · simp [fsAppend, fileAt, h]
    · simp [fsAppend, fileAt, h, ih]

theorem fileAt_fsAppend_other (fs : FileSys) (p q : String × String)
    (m : WsMsg) (hq : q ≠ p) :
    fileAt (fsAppend fs p m) q = fileAt fs q := by
  have hq' : ¬ p = q := fun h => hq h.symm
  induction fs with
  | nil => simp [fsAppend, fileAt, hq']
  | cons e rest ih =>
    obtain ⟨r, c⟩ := e
    by_cases h : r = p
    · have hr : ¬ r = q := fun hh => hq' (h ▸ hh)
      simp [fsAppend, fileAt, h, hr, hq']
    · by_cases h2 : r = q
      · simp [fsAppend, fileAt, h, h2, hq, hq']
      · simp [fsAppend, fileAt, h, h2, hq, hq', ih]

/-- Claim C8 counterexample: a candle-channel message (channel `candle1m`)
is filed under `other/`, not under a `candles/` subtree as the claim states —
`save_raw_data` only distinguishes channels containing `'trade'` from
everything else. -/
theorem claim8_counterexample :
    argChannelD candleMsg "unknown" = "candle1m"
    ∧ (rawDataPath candleMsg "2025-01-01").1 = "other"
    ∧ (rawDataPath candleMsg "2025-01-01").1 ≠ "candles" := by
  refine ⟨rfl, ?_, ?_⟩ <;> decide

/-- Claim C8 (amended): `save_raw_data` appends the message as one line to
the file `{instId}_{channel}_{YYYY-MM-DD}.jsonl`, leaving every other file
unchanged; the subtree is `trades/` exactly when the channel contains the
substring `'trade'` and `other/` for every other message (candle-channel
messages included — no `candles/` subtree is ever written). -/
theorem claim8_save_raw (fs : FileSys) (m : WsMsg) (today : String) :
    fileAt (save_raw_data fs m today) (rawDataPath m today)
        = fileAt fs (rawDataPath m today) ++ [m]
    ∧ (∀ q : String × String, q ≠ rawDataPath m today →
        fileAt (save_raw_data fs m today) q = fileAt fs q)
    ∧ ((rawDataPath m today).1 = "trades"
        ↔ listHasSub "trade".data (argChannelD m "unknown").data = true)
    ∧ ((rawDataPath m today).1 = "trades" ∨ (rawDataPath m today).1 = "other")
    ∧ (rawDataPath m today).2
        = argInstIdD m "unknown" ++ "_" ++ argChannelD m "unknown" ++ "_"
            ++ today ++ ".jsonl" := by
  have hne : ("other" : String) ≠ "trades" := by decide
  refine ⟨fileAt_fsAppend_self fs _ m,
    fun q hq => fileAt_fsAppend_other fs _ q m hq, ?_, ?_, rfl⟩
  · show rawFolder (argChannelD m "unknown") = "trades" ↔ _
    unfold rawFolder
    by_cases h : listHasSub "trade".data (argChannelD m "unknown").data
    · simp [h]
    · simp [h, hne]
  · show rawFolder (argChannelD m "unknown") = "trades"
        ∨ rawFolder (argChannelD m "unknown") = "other"
    unfold rawFolder
    split
    · exact Or.inl rfl
    · exact Or.inr rfl

/-- Witness for the amended C8: archiving a trades-channel message into an
empty filesystem creates exactly its one file and leaves an unrelated path
untouched. -/
theorem claim8_save_raw_witness :
    fileAt (save_raw_data [] tradesMsg "2025-01-01")
        (rawDataPath tradesMsg "2025-01-01")
      = fileAt ([] : FileSys) (rawDataPath tradesMsg "2025-01-01")
          ++ [tradesMsg]
    ∧ (("other", "x") : String × String) ≠ rawDataPath tradesMsg "2025-01-01"
    ∧ fileAt (save_raw_data [] tradesMsg "2025-01-01") ("other", "x")
        = fileAt ([] : FileSys) ("other", "x") :=
  ⟨(claim8_save_raw [] tradesMsg "2025-01-01").1, by decide,
   (claim8_save_raw [] tradesMsg "2025-01-01").2.1 ("other", "x") (by decide)⟩

theorem handleTrades_filter (pF : String → Option ℚ) (pI : String → Option ℤ)
    (inst_id : String) (trs : List RawTrade) :
    ∀ buf : DataBuffer, handleTrades pF pI buf inst_id trs
      = handleTrades pF pI buf inst_id (trs.filter hasRequired) := by
  induction trs with
  | nil => intro buf; rfl
  | cons tr trs ih =>
    intro buf
    by_cases h : hasRequired tr
    · rw [show (tr :: trs).filter hasRequired = tr :: trs.filter hasRequired
        from by simp [List.filter_cons, h]]
      show handleTrades pF pI (processRawTrade pF pI buf inst_id tr)
          inst_id trs = _
      exact ih _
    · rw [show (tr :: trs).filter hasRequired = trs.filter hasRequired
        from by simp [List.filter_cons, h]]
      show handleTrades pF pI (processRawTrade pF pI buf inst_id tr)
          inst_id trs = _
      rw [show processRawTrade pF pI buf inst_id tr = buf
        from by simp [processRawTrade, h]]
      exact ih buf

/-- Claim C9: in `handle_data`'s trade loop, records missing a required field
(`px`, `sz`, `ts`, `side`) are dropped individually before `add_trade` is
invoked — the resulting buffer equals the one obtained from the well-formed
records alone, and a single malformed record never changes the buffer. -/
theorem claim9_malformed_dropped (pF : String → Option ℚ)
    (pI : String → Option ℤ) (buf : DataBuffer) (inst_id : String)
    (trs : List RawTrade) :
    handleTrades pF pI buf inst_id trs
        = handleTrades pF pI buf inst_id (trs.filter hasRequired)
    ∧ (∀ tr : RawTrade, hasRequired tr = false →
        ∀ b : DataBuffer, processRawTrade pF pI b inst_id tr = b)
    ∧ (∀ (fs : FileSys) (today : String) (m : WsMsg) (tr : RawTrade)
        (rest : List RawTrade), argChannelD m "" = "trades" →
        m.data = some (tr :: rest) →
        (handle_data pF pI today fs buf m).2
          = handleTrades pF pI buf (argInstIdD m "") (tr :: rest)) := by
  refine ⟨handleTrades_filter pF pI inst_id trs buf, ?_, ?_⟩
  · intro tr h b
    simp [processRawTrade, h]
  · intro fs today m tr rest hch hdata
    simp [handle_data, hdata, hch]

/-- Witness for C9: a record missing `px` is dropped and leaves the buffer
unchanged. -/
theorem claim9_malformed_dropped_witness :
    hasRequired badRaw = false
    ∧ processRawTrade (fun _ => some 1) (fun _ => some 0) emptyBuffer
        "BTC-USDT" badRaw = emptyBuffer :=
  ⟨by decide,
   (claim9_malformed_dropped (fun _ => some 1) (fun _ => some 0) emptyBuffer
      "BTC-USDT" []).2.1 badRaw (by decide) emptyBuffer⟩

/-- Claim C10: when an instrument identifier matches both the BTC and the ETH
discriminator, `add_trade` appends to the BTC group only (tested first) and
leaves the ETH group untouched. -/
theorem claim10_btc_priority (buf : DataBuffer) (inst_id : String) (t : Trade)
    (hb : hasBTC inst_id = true) (he : hasETH inst_id = true) :
    add_trade buf inst_id t
        = { buf with btc_trades := dequeAppend 1000 buf.btc_trades t }
    ∧ (add_trade buf inst_id t).eth_trades = buf.eth_trades := by
  constructor
  · simp [add_trade, hb]
  · simp [add_trade, hb]

/-- Witness for C10 at `inst_id = "ETH-BTC"`, which contains both substrings. -/
theorem claim10_btc_priority_witness :
    hasBTC "ETH-BTC" = true ∧ hasETH "ETH-BTC" = true
    ∧ add_trade emptyBuffer "ETH-BTC" t0
        = { emptyBuffer with
            btc_trades := dequeAppend 1000 emptyBuffer.btc_trades t0 }
    ∧ (add_trade emptyBuffer "ETH-BTC" t0).eth_trades
        = emptyBuffer.eth_trades :=
  ⟨by decide, by decide,
   (claim10_btc_priority emptyBuffer "ETH-BTC" t0 (by decide) (by decide)).1,
   (claim10_btc_priority emptyBuffer "ETH-BTC" t0 (by decide) (by decide)).2⟩

end OkxVP

